import Mathlib

/-!
Shallow embedding of `mergify_engine/rules/__init__.py` (policy resolution and
rule matching core of the mergify engine).

Two models of configuration values are used:

* a pure tree model (`Yaml`), which captures the value-level semantics of the
  Python dictionaries produced by `yaml.safe_load` (tree shaped, insertion
  ordered, unique keys at every mapping level); the functions `dictMerge`,
  `getMergedBranchRule` and `buildBranchRule` are direct translations of
  `_dict_merge`, `get_merged_branch_rule` and `build_branch_rule`;

* a heap model (`Heap`, `HVal`), which captures the reference semantics of
  Python dictionaries (values of mapping type are references into a mutable
  heap) and is used to settle the mutation claim about `_dict_merge`.

Partial behaviour of the Python code (exceptions such as `IndexError` on
`branch_re[0]` for an empty pattern, `KeyError`, or merging a non mapping)
is modelled with `Option`, where `none` is an uncaught exception.
-/

namespace MergifyRules

/-- Pure tree model of a Python value as produced by `yaml.safe_load`:
`null`, booleans, integers, strings, lists and insertion-ordered mappings
with string keys. -/
inductive Yaml : Type where
  | null : Yaml
  | b : Bool → Yaml
  | n : Int → Yaml
  | s : String → Yaml
  | seq : List Yaml → Yaml
  | map : List (String × Yaml) → Yaml
  deriving Repr

mutual

/-- Decidable equality for `Yaml` (the nested inductive prevents deriving). -/
def yamlDecEq : (a b : Yaml) → Decidable (a = b)
  | .null, .null => isTrue rfl
  | .null, .b _ => isFalse (fun h => Yaml.noConfusion h)
  | .null, .n _ => isFalse (fun h => Yaml.noConfusion h)
  | .null, .s _ => isFalse (fun h => Yaml.noConfusion h)
  | .null, .seq _ => isFalse (fun h => Yaml.noConfusion h)
  | .null, .map _ => isFalse (fun h => Yaml.noConfusion h)
  | .b _, .null => isFalse (fun h => Yaml.noConfusion h)
  | .b x, .b y =>
    match decEq x y with
    | isTrue h => isTrue (by rw [h])
    | isFalse h => isFalse (fun hh => h (Yaml.b.inj hh))
  | .b _, .n _ => isFalse (fun h => Yaml.noConfusion h)
  | .b _, .s _ => isFalse (fun h => Yaml.noConfusion h)
  | .b _, .seq _ => isFalse (fun h => Yaml.noConfusion h)
  | .b _, .map _ => isFalse (fun h => Yaml.noConfusion h)
  | .n _, .null => isFalse (fun h => Yaml.noConfusion h)
  | .n _, .b _ => isFalse (fun h => Yaml.noConfusion h)
  | .n x, .n y =>
    match decEq x y with
    | isTrue h => isTrue (by rw [h])
    | isFalse h => isFalse (fun hh => h (Yaml.n.inj hh))
  | .n _, .s _ => isFalse (fun h => Yaml.noConfusion h)
  | .n _, .seq _ => isFalse (fun h => Yaml.noConfusion h)
  | .n _, .map _ => isFalse (fun h => Yaml.noConfusion h)
  | .s _, .null => isFalse (fun h => Yaml.noConfusion h)
  | .s _, .b _ => isFalse (fun h => Yaml.noConfusion h)
  | .s _, .n _ => isFalse (fun h => Yaml.noConfusion h)
  | .s x, .s y =>
    match decEq x y with
    | isTrue h => isTrue (by rw [h])
    | isFalse h => isFalse (fun hh => h (Yaml.s.inj hh))
  | .s _, .seq _ => isFalse (fun h => Yaml.noConfusion h)
  | .s _, .map _ => isFalse (fun h => Yaml.noConfusion h)
  | .seq _, .null => isFalse (fun h => Yaml.noConfusion h)
  | .seq _, .b _ => isFalse (fun h => Yaml.noConfusion h)
  | .seq _, .n _ => isFalse (fun h => Yaml.noConfusion h)
  | .seq _, .s _ => isFalse (fun h => Yaml.noConfusion h)
  | .seq xs, .seq ys =>
    match yamlListDecEq xs ys with
    | isTrue h => isTrue (by rw [h])
    | isFalse h => isFalse (fun hh => h (Yaml.seq.inj hh))
  | .seq _, .map _ => isFalse (fun h => Yaml.noConfusion h)
  | .map _, .null => isFalse (fun h => Yaml.noConfusion h)
  | .map _, .b _ => isFalse (fun h => Yaml.noConfusion h)
  | .map _, .n _ => isFalse (fun h => Yaml.noConfusion h)
  | .map _, .s _ => isFalse (fun h => Yaml.noConfusion h)
  | .map _, .seq _ => isFalse (fun h => Yaml.noConfusion h)
  | .map xs, .map ys =>
    match yamlEntriesDecEq xs ys with
    | isTrue h => isTrue (by rw [h])
    | isFalse h => isFalse (fun hh => h (Yaml.map.inj hh))

/-- Decidable equality for lists of `Yaml`. -/
def yamlListDecEq : (a b : List Yaml) → Decidable (a = b)
  | [], [] => isTrue rfl
  | [], _ :: _ => isFalse (fun h => List.noConfusion h)
  | _ :: _, [] => isFalse (fun h => List.noConfusion h)
  | x :: xs, y :: ys =>
    match yamlDecEq x y with
    | isTrue h1 =>
      (match yamlListDecEq xs ys with
       | isTrue h2 => isTrue (by rw [h1, h2])
       | isFalse h2 => isFalse (fun hh => h2 (List.cons.inj hh).2))
    | isFalse h1 => isFalse (fun hh => h1 (List.cons.inj hh).1)

/-- Decidable equality for association lists of `Yaml`. -/
def yamlEntriesDecEq : (a b : List (String × Yaml)) → Decidable (a = b)
  | [], [] => isTrue rfl
  | [], _ :: _ => isFalse (fun h => List.noConfusion h)
  | _ :: _, [] => isFalse (fun h => List.noConfusion h)
  | (k1, v1) :: xs, (k2, v2) :: ys =>
    match decEq k1 k2 with
    | isTrue hk =>
      (match yamlDecEq v1 v2 with
       | isTrue hv =>
         (match yamlEntriesDecEq xs ys with
          | isTrue h2 => isTrue (by rw [hk, hv, h2])
          | isFalse h2 => isFalse (fun hh => h2 (List.cons.inj hh).2))
       | isFalse hv =>
         isFalse (fun hh => hv (congrArg Prod.snd (List.cons.inj hh).1)))
    | isFalse hk =>
      isFalse (fun hh => hk (congrArg Prod.fst (List.cons.inj hh).1))

end

instance : DecidableEq Yaml := yamlDecEq

/-- Lookup in an insertion-ordered association list, mirroring Python
`d[k]` / `d.get(k)` (first occurrence; Python dicts have unique keys). -/
def getK : List (String × α) → String → Option α
  | [], _ => none
  | (k', v) :: rest, k => if k' = k then some v else getK rest k

/-- Update in an insertion-ordered association list, mirroring Python
`d[k] = v`: an existing key keeps its position, a new key is appended. -/
def setK : List (String × α) → String → α → List (String × α)
  | [], k, v => [(k, v)]
  | (k', v') :: rest, k, v =>
    if k' = k then (k, v) :: rest else (k', v') :: setK rest k v

/-- Translation of `_dict_merge(dct, merge_dct)` (value semantics): for each
key of the override, when both the current base value and the override value
are mappings the merge recurses, otherwise the override value replaces the
base value; the updated base is the result.  The override items are
processed in insertion order, as `merge_dct.items()` yields them. -/
def dictMerge : List (String × Yaml) → List (String × Yaml) → List (String × Yaml)
  | dct, [] => dct
  | dct, (k, Yaml.map vm) :: rest =>
    (match getK dct k with
     | some (Yaml.map dm) => dictMerge (setK dct k (Yaml.map (dictMerge dm vm))) rest
     | _ => dictMerge (setK dct k (Yaml.map vm)) rest)
  | dct, (k, v) :: rest => dictMerge (setK dct k v) rest
termination_by _ mrg => sizeOf mrg
decreasing_by all_goals simp_wf; all_goals omega

/-- Definition following the words of the specification (claim C3): the
value the merge stores at one key of the override — when both the current
base value and the override value are mappings, their recursive merge,
and in every other case the override value wholesale. -/
def mergeValueSpec (dv : Option Yaml) (v : Yaml) : Yaml :=
  match v with
  | Yaml.map vm =>
    (match dv with
     | some (Yaml.map dm) => Yaml.map (dictMerge dm vm)
     | _ => Yaml.map vm)
  | v1 => v1

mutual

/-- Well-formedness of a `Yaml` value: every mapping nested inside it has
pairwise distinct keys (true of every value produced by `yaml.safe_load`,
since a Python dict cannot hold a key twice). -/
def valWf : Yaml → Bool
  | Yaml.map m => ((m.map Prod.fst).Nodup : Bool) && entriesWf m
  | _ => true

/-- Well-formedness of the values of an association list, see `valWf`. -/
def entriesWf : List (String × Yaml) → Bool
  | [] => true
  | (_, v) :: rest => valWf v && entriesWf rest

end

/-- Modelled from the spec: the baked-in DefaultPolicy loaded from
`data/default_rule.yml`, a file of this repository that is not under `src/`.
The spec describes it as a fallback policy document merged underneath every
repository policy so that after the merge every field required by the `Rule`
schema is present.  The concrete leaf values below are a faithful filling of
that schema; no claim depends on them. -/
def DEFAULT_RULE : List (String × Yaml) :=
  [("protection", Yaml.map
      [("required_status_checks", Yaml.map
          [("strict", Yaml.b false), ("contexts", Yaml.seq [])]),
       ("required_pull_request_reviews", Yaml.map
          [("dismiss_stale_reviews", Yaml.b true),
           ("require_code_owner_reviews", Yaml.b false),
           ("required_approving_review_count", Yaml.n 1)]),
       ("restrictions", Yaml.null),
       ("enforce_admins", Yaml.null)]),
   ("enabling_label", Yaml.null),
   ("disabling_label", Yaml.s "no-mergify"),
   ("disabling_files", Yaml.seq [Yaml.s ".mergify.yml"]),
   ("merge_strategy", Yaml.map
      [("method", Yaml.s "merge"), ("rebase_fallback", Yaml.s "merge")]),
   ("automated_backport_labels", Yaml.null)]

/-- The legacy rules document handed to `get_merged_branch_rule` and
`build_branch_rule`: the value of the configuration key `rules`.  The field
`dflt` is the `default` entry (`none` when the key is absent, `some
Yaml.null` when it is present and null); `branches` is the `branches`
mapping (`rules.get("branches", {})` makes an absent key and an empty
mapping indistinguishable, so the empty list models both). -/
structure RulesDoc : Type where
  dflt : Option Yaml
  branches : List (String × Yaml)

/-- Translation of the tail of `get_merged_branch_rule` when `branch_re` is
falsy: `elif "default" in rules and rules["default"] is None: return None;
return default_rules`. -/
def defaultBranchPath (doc : RulesDoc) (base : List (String × Yaml)) :
    Option (Option Yaml) :=
  if doc.dflt = some Yaml.null then some none else some (some (Yaml.map base))

/-- Translation of `get_merged_branch_rule(rules, branch_re)`.  The result is
`none` for an uncaught Python exception, `some none` for Python `None`
(automation disabled), and `some (some y)` for a merged policy `y`.  The
initial `copy.deepcopy(DEFAULT_RULE)` is the identity in this value model;
`rules.get("default") is not None` skips the first merge when `default` is
absent or null; merging a present non-null non-mapping value would raise in
`merge_dct.items()`. -/
def getMergedBranchRule (doc : RulesDoc) (branchRe : Option String) :
    Option (Option Yaml) :=
  match (match doc.dflt with
         | some Yaml.null => some DEFAULT_RULE
         | some (Yaml.map m) => some (dictMerge DEFAULT_RULE m)
         | some _ => none
         | none => some DEFAULT_RULE) with
  | none => none
  | some base =>
    match branchRe with
    | some p =>
      if p = "" then defaultBranchPath doc base
      else
        match getK doc.branches p with
        | none => none
        | some Yaml.null => some none
        | some (Yaml.map bm) => some (some (Yaml.map (dictMerge base bm)))
        | some _ => none
    | none => defaultBranchPath doc base

/-- Lexicographic comparison of two strings as their lists of Unicode code
points, the order Python uses to compare `str` values: a shorter prefix
comes first, otherwise the first differing code point decides. -/
def charListLe : List Char → List Char → Bool
  | [], _ => true
  | _ :: _, [] => false
  | a :: as, b :: bs =>
    if a.toNat < b.toNat then true
    else if b.toNat < a.toNat then false
    else charListLe as bs

/-- The order of Python `sorted` on strings, as a proposition. -/
def strLe (a b : String) : Prop := charListLe a.data b.data = true

instance : DecidableRel strLe := fun a b =>
  inferInstanceAs (Decidable (charListLe a.data b.data = true))

/-- Model of Python `sorted` on a list of strings: a stable sort for the
lexicographic order on code points.  Insertion sort is used because any
correct stable sort is an adequate model and this one evaluates by
reduction. -/
def sortStrings (l : List String) : List String :=
  l.insertionSort strLe

/-- Loop body of `build_branch_rule`, iterating the sorted branch patterns.
Reading `branch_re[0]` of an empty pattern raises `IndexError`, modelled by
`none`.  The abstract parameter `rematch` stands for the external
`re.match` (the `re` module is an external collaborator). -/
def buildBranchRuleGo (rematch : String → String → Bool) (doc : RulesDoc)
    (branch : String) : List String → Option (Option Yaml)
  | [] => getMergedBranchRule doc none
  | p :: rest =>
    match p.data with
    | [] => none
    | c :: _ =>
      if ((c == '^') && rematch p branch) || (!(c == '^') && (p == branch)) then
        match getK doc.branches p with
        | none => none
        | some Yaml.null => some none
        | some _ => getMergedBranchRule doc (some p)
      else buildBranchRuleGo rematch doc branch rest

/-- Translation of `build_branch_rule(rules, branch)`. -/
def buildBranchRule (rematch : String → String → Bool) (doc : RulesDoc)
    (branch : String) : Option (Option Yaml) :=
  buildBranchRuleGo rematch doc branch (sortStrings (doc.branches.map Prod.fst))

/-- True when the first character of the pattern is a caret (for a
non-empty pattern this is `p[0] == "^"`). -/
def caretPattern (p : String) : Bool :=
  match p.data with
  | [] => false
  | c :: _ => c == '^'

/-- Definition following the words of the specification (refinement target
for claim C2): iterate the branch patterns in lexicographically sorted
order; a pattern is treated as a regular expression exactly when its first
character is a caret and must otherwise equal the branch name by string
equality; the first pattern that matches wins. -/
def selectBranchSpec (rematch : String → String → Bool) (pats : List String)
    (branch : String) : Option String :=
  (sortStrings pats).find?
    (fun p => if caretPattern p then rematch p branch else p == branch)

/-- The fixed tuple `PullRequestRuleForPR.BASE_ATTRIBUTES`. -/
def BASE_ATTRIBUTES : List String :=
  ["head", "base", "author", "merged_by", "body", "title", "files"]

/-- A compiled condition as the matcher sees it: `condition.attribute_name`
plus the callable `condition(**d)`.  The filter language that compiles the
textual expression is external to the matcher, so evaluation is abstract
over the attribute bag type `β`. -/
structure Condition (β : Type) : Type where
  attribute_name : String
  eval : β → Bool

/-- A pull request rule as the matcher sees it: its `conditions` list (the
`name` and the opaque `actions` mapping play no role in matching; `name` is
kept so that distinct rules stay distinct). -/
structure PRRule (β : Type) : Type where
  name : String
  conditions : List (Condition β)

/-- Inner loop of `PullRequestRuleForPR.__attrs_post_init__` over one
rule, with the Python for/else: a false condition on a base attribute
abandons the rule (`none`); any other false condition is appended to
`next_conditions_to_validate`; if the loop completes, that pending list is
returned. -/
def ruleMatchConditions (d : β) : List (Condition β) → Option (List (Condition β))
  | [] => some []
  | c :: rest =>
    if c.eval d then ruleMatchConditions d rest
    else if BASE_ATTRIBUTES.contains c.attribute_name then none
    else (ruleMatchConditions d rest).map (fun l => c :: l)

/-- Translation of `PullRequestRuleForPR.__attrs_post_init__`: the
`matching_rules` list built by iterating the rules in order and appending
`(rule, next_conditions_to_validate)` for every rule that is not
abandoned. -/
def matchingRules (rules : List (PRRule β)) (d : β) :
    List (PRRule β × List (Condition β)) :=
  rules.filterMap
    (fun r => (ruleMatchConditions d r.conditions).map (fun pending => (r, pending)))

/-- Definition following the words of the specification (claims C1 and C4):
a rule is disqualified when at least one of its conditions whose attribute
name is in `BASE_ATTRIBUTES` evaluates false on the bag. -/
def ruleDisqualifiedSpec (d : β) (conds : List (Condition β)) : Bool :=
  conds.any (fun c => BASE_ATTRIBUTES.contains c.attribute_name && !(c.eval d))

/-- Definition following the words of the specification (claim C4): the
pending list is exactly the conditions that evaluated false and whose
attribute name is not in `BASE_ATTRIBUTES`, in declared order. -/
def pendingSpec (d : β) (conds : List (Condition β)) : List (Condition β) :=
  conds.filter
    (fun c => !(c.eval d) && !(BASE_ATTRIBUTES.contains c.attribute_name))

/-- Modelled from the spec: the external schema validation facility
(`voluptuous`, an external collaborator consumed through the validation
boundary of section 4.5) applied to `UserConfigurationSchemaV1`, which is
`{Required("rules"): Any({"default": ..., "branches": ...}, None)}`.  A
dict schema rejects unknown keys, so the document must consist of exactly
the key `rules`, whose value is null or a mapping whose keys all lie in
`default` / `branches`; the value shapes below that are abstracted. -/
def checkV1 (doc : List (String × Yaml)) : Bool :=
  (getK doc "rules").isSome && doc.all (fun kv => kv.fst == "rules") &&
    (match getK doc "rules" with
     | some Yaml.null => true
     | some (Yaml.map m) =>
       m.all (fun kv => kv.fst == "default" || kv.fst == "branches")
     | _ => false)

/-- Modelled from the spec: the external schema validation applied to
`UserConfigurationSchemaV2`, which is
`Schema({Required("pull_request_rules"): Coerce(PullRequestRules)})`.  The
document must consist of exactly the key `pull_request_rules`; the rule
list coercion below that is abstracted. -/
def checkV2 (doc : List (String × Yaml)) : Bool :=
  (getK doc "pull_request_rules").isSome &&
    doc.all (fun kv => kv.fst == "pull_request_rules")

/-- Modelled from the spec: `voluptuous.SomeOf(min_valid=1, max_valid=1,
validators=(V1, V2))` wrapped in a `Schema`: validation succeeds exactly
when exactly one of the two validators accepts the document, and any
failure surfaces as a `voluptuous.MultipleInvalid`. -/
def validateUserConfig (doc : List (String × Yaml)) :
    Except String (List (String × Yaml)) :=
  match checkV1 doc, checkV2 doc with
  | true, false => Except.ok doc
  | false, true => Except.ok doc
  | true, true => Except.error "too many validators passed"
  | false, false => Except.error "no validator passed"

/-- The error taxonomy of the module: `NoRules` when the configuration file
is absent, `InvalidRules detail` when it fails parse or validation. -/
inductive MergifyError : Type where
  | noRules : MergifyError
  | invalidRules : String → MergifyError
  deriving DecidableEq, Repr

/-- Translation of the validation tail of `get_mergify_config` for an
already fetched and parsed document: a `voluptuous.MultipleInvalid` raised
by the schema is converted into `InvalidRules(str(e))`. -/
def getMergifyConfigParsed (doc : List (String × Yaml)) :
    Except MergifyError (List (String × Yaml)) :=
  match validateUserConfig doc with
  | Except.ok d => Except.ok d
  | Except.error detail => Except.error (MergifyError.invalidRules detail)

/-- True exactly when a result is the invalid-policy error. -/
def isInvalidRules : Except MergifyError α → Bool
  | Except.error (MergifyError.invalidRules _) => true
  | _ => false

/-!
Heap model of Python dictionaries, used for the mutation claim about
`_dict_merge`.  A dictionary value is a reference (`HVal.href`) into a heap,
a list of cells indexed by position; every other value is immutable.
Python lists are atomic to `_dict_merge` (only `isinstance(dct[k], dict)`
matters), so they are kept as immutable values here.
-/

/-- A Python value in the heap model. -/
inductive HVal : Type where
  | hnull : HVal
  | hb : Bool → HVal
  | hn : Int → HVal
  | hstr : String → HVal
  | hlist : List HVal → HVal
  | href : Nat → HVal
  deriving Repr

mutual

/-- Decidable equality for `HVal` (the nested inductive prevents deriving). -/
def hvalDecEq : (a b : HVal) → Decidable (a = b)
  | .hnull, .hnull => isTrue rfl
  | .hnull, .hb _ => isFalse (fun h => HVal.noConfusion h)
  | .hnull, .hn _ => isFalse (fun h => HVal.noConfusion h)
  | .hnull, .hstr _ => isFalse (fun h => HVal.noConfusion h)
  | .hnull, .hlist _ => isFalse (fun h => HVal.noConfusion h)
  | .hnull, .href _ => isFalse (fun h => HVal.noConfusion h)
  | .hb _, .hnull => isFalse (fun h => HVal.noConfusion h)
  | .hb x, .hb y =>
    match decEq x y with
    | isTrue h => isTrue (by rw [h])
    | isFalse h => isFalse (fun hh => h (HVal.hb.inj hh))
  | .hb _, .hn _ => isFalse (fun h => HVal.noConfusion h)
  | .hb _, .hstr _ => isFalse (fun h => HVal.noConfusion h)
  | .hb _, .hlist _ => isFalse (fun h => HVal.noConfusion h)
  | .hb _, .href _ => isFalse (fun h => HVal.noConfusion h)
  | .hn _, .hnull => isFalse (fun h => HVal.noConfusion h)
  | .hn _, .hb _ => isFalse (fun h => HVal.noConfusion h)
  | .hn x, .hn y =>
    match decEq x y with
    | isTrue h => isTrue (by rw [h])
    | isFalse h => isFalse (fun hh => h (HVal.hn.inj hh))
  | .hn _, .hstr _ => isFalse (fun h => HVal.noConfusion h)
  | .hn _, .hlist _ => isFalse (fun h => HVal.noConfusion h)
  | .hn _, .href _ => isFalse (fun h => HVal.noConfusion h)
  | .hstr _, .hnull => isFalse (fun h => HVal.noConfusion h)
  | .hstr _, .hb _ => isFalse (fun h => HVal.noConfusion h)
  | .hstr _, .hn _ => isFalse (fun h => HVal.noConfusion h)
  | .hstr x, .hstr y =>
    match decEq x y with
    | isTrue h => isTrue (by rw [h])
    | isFalse h => isFalse (fun hh => h (HVal.hstr.inj hh))
  | .hstr _, .hlist _ => isFalse (fun h => HVal.noConfusion h)
  | .hstr _, .href _ => isFalse (fun h => HVal.noConfusion h)
  | .hlist _, .hnull => isFalse (fun h => HVal.noConfusion h)
  | .hlist _, .hb _ => isFalse (fun h => HVal.noConfusion h)
  | .hlist _, .hn _ => isFalse (fun h => HVal.noConfusion h)
  | .hlist _, .hstr _ => isFalse (fun h => HVal.noConfusion h)
  | .hlist xs, .hlist ys =>
    match hvalListDecEq xs ys with
    | isTrue h => isTrue (by rw [h])
    | isFalse h => isFalse (fun hh => h (HVal.hlist.inj hh))
  | .hlist _, .href _ => isFalse (fun h => HVal.noConfusion h)
  | .href _, .hnull => isFalse (fun h => HVal.noConfusion h)
  | .href _, .hb _ => isFalse (fun h => HVal.noConfusion h)
  | .href _, .hn _ => isFalse (fun h => HVal.noConfusion h)
  | .href _, .hstr _ => isFalse (fun h => HVal.noConfusion h)
  | .href _, .hlist _ => isFalse (fun h => HVal.noConfusion h)
  | .href x, .href y =>
    match decEq x y with
    | isTrue h => isTrue (by rw [h])
    | isFalse h => isFalse (fun hh => h (HVal.href.inj hh))

/-- Decidable equality for lists of `HVal`. -/
def hvalListDecEq : (a b : List HVal) → Decidable (a = b)
  | [], [] => isTrue rfl
  | [], _ :: _ => isFalse (fun h => List.noConfusion h)
  | _ :: _, [] => isFalse (fun h => List.noConfusion h)
  | x :: xs, y :: ys =>
    match hvalDecEq x y with
    | isTrue h1 =>
      (match hvalListDecEq xs ys with
       | isTrue h2 => isTrue (by rw [h1, h2])
       | isFalse h2 => isFalse (fun hh => h2 (List.cons.inj hh).2))
    | isFalse h1 => isFalse (fun hh => h1 (List.cons.inj hh).1)

end

instance : DecidableEq HVal := hvalDecEq

/-- The mutable store: cell `i` holds the entry list of dictionary `i`. -/
abbrev Heap : Type := List (List (String × HVal))

/-- Read dictionary `i` (out-of-range reads, which never occur for valid
references, give an empty dictionary). -/
def heapCell (h : Heap) (i : Nat) : List (String × HVal) :=
  h.getD i []

/-- Overwrite dictionary `i` in place. -/
def heapWrite (h : Heap) (i : Nat) (d : List (String × HVal)) : Heap :=
  h.set i d

/-- Heap translation of `_dict_merge(dct, merge_dct)`, iterating an item
snapshot of the override (`merge_dct.items()` taken at call time): when the
current base value and the override value at a key are both dictionary
references the merge recurses through the heap, otherwise the override
value (for a dictionary, the reference itself, not a copy) is stored into
the base cell.  The fuel only bounds recursion depth; Python has no such
bound and would instead not terminate on cyclic stores. -/
def dictMergeGo : Nat → Heap → Nat → List (String × HVal) → Option Heap
  | _, h, _, [] => some h
  | 0, _, _, _ :: _ => none
  | Nat.succ f, h, dct, (k, v) :: rest =>
    match getK (heapCell h dct) k, v with
    | some (HVal.href i), HVal.href j =>
      (match dictMergeGo f h i (heapCell h j) with
       | none => none
       | some h2 => dictMergeGo f h2 dct rest)
    | _, _ =>
      dictMergeGo f (heapWrite h dct (setK (heapCell h dct) k v)) dct rest

/-- Heap translation of `_dict_merge` on two dictionary references. -/
def dictMergeH (fuel : Nat) (h : Heap) (dct mrg : Nat) : Option Heap :=
  dictMergeGo fuel h dct (heapCell h mrg)

/-- Heap translation of `copy.deepcopy` on an entry list: every reference
is replaced by a reference to a freshly allocated recursive copy. -/
def deepcopyEntries : Nat → Heap → List (String × HVal) →
    Option (Heap × List (String × HVal))
  | _, h, [] => some (h, [])
  | 0, _, _ :: _ => none
  | Nat.succ f, h, (k, HVal.href i) :: rest =>
    (match deepcopyEntries f h (heapCell h i) with
     | none => none
     | some (h1, copied) =>
       match deepcopyEntries f (h1 ++ [copied]) rest with
       | none => none
       | some (h2, rest2) => some (h2, (k, HVal.href h1.length) :: rest2))
  | Nat.succ f, h, (k, v) :: rest =>
    match deepcopyEntries f h rest with
    | none => none
    | some (h2, rest2) => some (h2, (k, v) :: rest2)

/-- Heap translation of `copy.deepcopy` on a dictionary reference. -/
def deepcopyH (fuel : Nat) (h : Heap) (i : Nat) : Option (Heap × Nat) :=
  match deepcopyEntries fuel h (heapCell h i) with
  | none => none
  | some (h1, entries) => some (h1 ++ [entries], h1.length)

/-- Heap translation of `get_merged_branch_rule`.  `docDefault` is the
`default` entry of the document (`none` absent, `some none` present and
null, `some (some d)` a dictionary reference `d`); `branchOverride` is the
already looked-up `branches[branch_re]` entry in the same encoding, `none`
when `branch_re` was not passed.  The result pairs the final heap with the
returned reference (`none` for Python `None`). -/
def getMergedBranchRuleH (fuel : Nat) (h : Heap) (defaultRule : Nat)
    (docDefault : Option (Option Nat)) (branchOverride : Option (Option Nat)) :
    Option (Heap × Option Nat) :=
  match deepcopyH fuel h defaultRule with
  | none => none
  | some (h1, base) =>
    match (match docDefault with
           | some (some d) => dictMergeH fuel h1 base d
           | _ => some h1) with
    | none => none
    | some h2 =>
      match branchOverride with
      | some none => some (h2, none)
      | some (some bref) =>
        (match dictMergeH fuel h2 base bref with
         | none => none
         | some h3 => some (h3, some base))
      | none =>
        match docDefault with
        | some none => some (h2, none)
        | _ => some (h2, some base)

/-- Read a list of heap values back as pure trees, following references
(fuel-bounded; every recursive call consumes fuel, so the function reduces
by ordinary iota reduction). -/
def readbackVals : Nat → Heap → List HVal → Option (List Yaml)
  | _, _, [] => some []
  | 0, _, _ :: _ => none
  | Nat.succ f, h, v :: rest =>
    match (match v with
           | HVal.hnull => some Yaml.null
           | HVal.hb x => some (Yaml.b x)
           | HVal.hn x => some (Yaml.n x)
           | HVal.hstr x => some (Yaml.s x)
           | HVal.hlist l =>
             (match readbackVals f h l with
              | none => none
              | some ys => some (Yaml.seq ys))
           | HVal.href i =>
             (match readbackVals f h ((heapCell h i).map Prod.snd) with
              | none => none
              | some ys =>
                some (Yaml.map (((heapCell h i).map Prod.fst).zip ys)))) with
    | none => none
    | some y =>
      match readbackVals f h rest with
      | none => none
      | some ys => some (y :: ys)

/-- Read one heap value back as a pure tree. -/
def readbackH (fuel : Nat) (h : Heap) (v : HVal) : Option Yaml :=
  match readbackVals fuel h [v] with
  | some (y :: _) => some y
  | _ => none

/-- True when no value of the entry list is a dictionary reference, so a
merge from it can never recurse. -/
def entriesNoRef (l : List (String × HVal)) : Bool :=
  l.all (fun kv => match kv.snd with | HVal.href _ => false | _ => true)

/-- Example document for the branch-selection determinism witness: the
three branch patterns of the specification example, in an insertion order
that differs from sorted order. -/
def exDocC2 : RulesDoc :=
  { dflt := none,
    branches :=
      [("feature/*", Yaml.map [("disabling_label", Yaml.s "feat")]),
       ("^feature/.*", Yaml.map [("disabling_label", Yaml.s "regex")]),
       ("main", Yaml.map [("disabling_label", Yaml.s "mainline")])] }

/-- Concrete stand-in for `re.match` in the branch-selection witness: the
regular expression of the example matches exactly the branches it matches
under Python `re`, namely those beginning with the eight characters of
`feature/`. -/
def exRe : String → String → Bool :=
  fun pat branchName =>
    pat == "^feature/.*" && branchName.data.take 8 == "feature/".data

/-- Example heap for the deep-merge mutation counterexample.  Cells 0 to 4
hold the modelled built-in DEFAULT_RULE; cell 5 is the document default
policy `{"automated_backport_labels": {"stable/1.0": "backport-1.0"}}`
with its nested mapping in cell 6; cell 7 is the branch override
`{"automated_backport_labels": {"stable/2.0": "backport-2.0"}}` with its
nested mapping in cell 8. -/
def exHeapC6 : Heap :=
  [[("protection", HVal.href 1), ("enabling_label", HVal.hnull),
    ("disabling_label", HVal.hstr "no-mergify"),
    ("disabling_files", HVal.hlist [HVal.hstr ".mergify.yml"]),
    ("merge_strategy", HVal.href 2),
    ("automated_backport_labels", HVal.hnull)],
   [("required_status_checks", HVal.href 3),
    ("required_pull_request_reviews", HVal.href 4),
    ("restrictions", HVal.hnull), ("enforce_admins", HVal.hnull)],
   [("method", HVal.hstr "merge"), ("rebase_fallback", HVal.hstr "merge")],
   [("strict", HVal.hb false), ("contexts", HVal.hlist [])],
   [("dismiss_stale_reviews", HVal.hb true)],
   [("automated_backport_labels", HVal.href 6)],
   [("stable/1.0", HVal.hstr "backport-1.0")],
   [("automated_backport_labels", HVal.href 8)],
   [("stable/2.0", HVal.hstr "backport-2.0")]]

/-!  Lemmas about association list primitives. -/

theorem getK_setK_self (l : List (String × α)) (k : String) (v : α) :
    getK (setK l k v) k = some v := by
  induction l with
  | nil => simp [getK, setK]
  | cons kv rest ih =>
    obtain ⟨k1, v1⟩ := kv
    by_cases h : k1 = k
    · simp [getK, setK, h]
    · simp [getK, setK, h, ih]

theorem getK_setK_ne (l : List (String × α)) (k k' : String) (v : α)
    (h : k' ≠ k) : getK (setK l k v) k' = getK l k' := by
  induction l with
  | nil => simp [getK, setK, Ne.symm h]
  | cons kv rest ih =>
    obtain ⟨k1, v1⟩ := kv
    by_cases h1 : k1 = k
    · subst h1
      simp [getK, setK, Ne.symm h]
    · by_cases h2 : k1 = k'
      · subst h2
        simp [getK, setK, h, h1]
      · simp [getK, setK, h1, h2, ih]

theorem setK_of_getK_eq (l : List (String × α)) (k : String) (v : α)
    (h : getK l k = some v) : setK l k v = l := by
  induction l with
  | nil => simp [getK] at h
  | cons kv rest ih =>
    obtain ⟨k1, v1⟩ := kv
    by_cases h1 : k1 = k
    · subst h1
      simp [getK] at h
      simp [setK, h]
    · simp [getK, h1] at h
      simp [setK, h1, ih h]

theorem getK_of_mem_nodup (l : List (String × α)) (k : String) (v : α)
    (hm : (k, v) ∈ l) (hnd : (l.map Prod.fst).Nodup) : getK l k = some v := by
  induction l with
  | nil => cases hm
  | cons kv rest ih =>
    obtain ⟨k1, v1⟩ := kv
    simp only [List.map_cons, List.nodup_cons] at hnd
    rcases List.mem_cons.mp hm with h | h
    · cases h
      simp [getK]
    · have hne : k1 ≠ k := by
        intro he
        exact hnd.1 (he ▸ (List.mem_map.mpr ⟨(k, v), h, rfl⟩))
      simp [getK, hne, ih h hnd.2]

theorem getK_isSome_of_mem_keys (l : List (String × α)) (k : String)
    (hm : k ∈ l.map Prod.fst) : ∃ v, getK l k = some v := by
  induction l with
  | nil => cases hm
  | cons kv rest ih =>
    obtain ⟨k1, v1⟩ := kv
    rcases List.mem_cons.mp hm with h | h
    · subst h
      exact ⟨v1, by simp [getK]⟩
    · by_cases h1 : k1 = k
      · exact ⟨v1, by simp [getK, h1]⟩
      · obtain ⟨v, hv⟩ := ih h
        exact ⟨v, by simp [getK, h1, hv]⟩

theorem getK_eq_none_of_not_mem (l : List (String × α)) (k : String)
    (h : k ∉ l.map Prod.fst) : getK l k = none := by
  induction l with
  | nil => rfl
  | cons kv rest ih =>
    obtain ⟨k1, v1⟩ := kv
    simp only [List.map_cons, List.mem_cons, not_or] at h
    have h1 : k1 ≠ k := fun hh => h.1 hh.symm
    simp [getK, h1, ih h.2]

/-- Per-key characterization of `dictMerge`: at every key the merged
mapping holds the override value (recursively merged when both sides are
mappings), and at keys the override does not mention, the base value. -/
theorem dictMerge_getK : ∀ (dct mrg : List (String × Yaml)),
    (mrg.map Prod.fst).Nodup → ∀ k,
    getK (dictMerge dct mrg) k =
      match getK mrg k with
      | some v => some (mergeValueSpec (getK dct k) v)
      | none => getK dct k := by
  intro dct mrg
  induction dct, mrg using dictMerge.induct with
  | case1 dct =>
    intro _ k
    simp [dictMerge, getK]
  | case2 dct k0 vm rest dm hdm ihInner ihRest =>
    intro hnd k
    simp only [List.map_cons, List.nodup_cons] at hnd
    obtain ⟨hk0, hnd2⟩ := hnd
    have hk0m : k0 ∉ rest.map Prod.fst := by
      intro hmem
      exact hk0 hmem
    have hstep : dictMerge dct ((k0, Yaml.map vm) :: rest)
        = dictMerge (setK dct k0 (Yaml.map (dictMerge dm vm))) rest := by
      simp [dictMerge, hdm]
    rw [hstep, ihRest hnd2 k]
    by_cases hk : k0 = k
    · subst hk
      rw [getK_eq_none_of_not_mem rest k0 hk0m]
      simp [getK, getK_setK_self, hdm, mergeValueSpec]
    · have hk2 : k ≠ k0 := fun hh => hk hh.symm
      cases hr : getK rest k with
      | none =>
        simp only [hr]
        rw [getK_setK_ne dct k0 k _ hk2]
        simp [getK, hk, hr]
      | some w =>
        simp only [hr]
        rw [getK_setK_ne dct k0 k _ hk2]
        simp [getK, hk, hr]
  | case3 dct k0 vm rest hnone ihRest =>
    intro hnd k
    simp only [List.map_cons, List.nodup_cons] at hnd
    obtain ⟨hk0, hnd2⟩ := hnd
    have hk0m : k0 ∉ rest.map Prod.fst := by
      intro hmem
      exact hk0 hmem
    have hstep : dictMerge dct ((k0, Yaml.map vm) :: rest)
        = dictMerge (setK dct k0 (Yaml.map vm)) rest := by
      cases hd : getK dct k0 with
      | none => simp [dictMerge, hd]
      | some y =>
        cases y with
        | map dm => exact (hnone dm hd).elim
        | null => simp [dictMerge, hd]
        | b x => simp [dictMerge, hd]
        | n x => simp [dictMerge, hd]
        | s x => simp [dictMerge, hd]
        | seq l => simp [dictMerge, hd]
    rw [hstep, ihRest hnd2 k]
    by_cases hk : k0 = k
    · subst hk
      rw [getK_eq_none_of_not_mem rest k0 hk0m, getK_setK_self]
      cases hd : getK dct k0 with
      | none => simp [getK, mergeValueSpec, hd]
      | some y =>
        cases y with
        | map dm => exact (hnone dm hd).elim
        | null => simp [getK, mergeValueSpec, hd]
        | b x => simp [getK, mergeValueSpec, hd]
        | n x => simp [getK, mergeValueSpec, hd]
        | s x => simp [getK, mergeValueSpec, hd]
        | seq l => simp [getK, mergeValueSpec, hd]
    · have hk2 : k ≠ k0 := fun hh => hk hh.symm
      cases hr : getK rest k with
      | none =>
        simp only [hr]
        rw [getK_setK_ne dct k0 k _ hk2]
        simp [getK, hk, hr]
      | some w =>
        simp only [hr]
        rw [getK_setK_ne dct k0 k _ hk2]
        simp [getK, hk, hr]
  | case4 dct k0 v rest hnotmap ihRest =>
    intro hnd k
    simp only [List.map_cons, List.nodup_cons] at hnd
    obtain ⟨hk0, hnd2⟩ := hnd
    have hk0m : k0 ∉ rest.map Prod.fst := by
      intro hmem
      exact hk0 hmem
    have hstep : dictMerge dct ((k0, v) :: rest)
        = dictMerge (setK dct k0 v) rest := by
      cases v with
      | map vm => exact (hnotmap vm rfl).elim
      | null => simp [dictMerge]
      | b x => simp [dictMerge]
      | n x => simp [dictMerge]
      | s x => simp [dictMerge]
      | seq l => simp [dictMerge]
    rw [hstep, ihRest hnd2 k]
    by_cases hk : k0 = k
    · subst hk
      rw [getK_eq_none_of_not_mem rest k0 hk0m, getK_setK_self]
      cases v with
      | map vm => exact (hnotmap vm rfl).elim
      | null => simp [getK, mergeValueSpec]
      | b x => simp [getK, mergeValueSpec]
      | n x => simp [getK, mergeValueSpec]
      | s x => simp [getK, mergeValueSpec]
      | seq l => simp [getK, mergeValueSpec]
    · have hk2 : k ≠ k0 := fun hh => hk hh.symm
      cases hr : getK rest k with
      | none =>
        simp only [hr]
        rw [getK_setK_ne dct k0 k _ hk2]
        simp [getK, hk, hr]
      | some w =>
        simp only [hr]
        rw [getK_setK_ne dct k0 k _ hk2]
        simp [getK, hk, hr]

/-- C3: the deep merge processes each key of the override — when both the
base value and the override value at a key are mappings it merges them
recursively, and in every other case (lists and scalars included) the
override value replaces the base value wholesale, with no list
concatenation; keys the override does not mention keep their base value,
and the result is the updated base mapping. -/
theorem dict_merge_per_key (dct mrg : List (String × Yaml))
    (hnd : (mrg.map Prod.fst).Nodup) (k : String) :
    getK (dictMerge dct mrg) k =
      match getK mrg k with
      | some v => some (mergeValueSpec (getK dct k) v)
      | none => getK dct k :=
  dictMerge_getK dct mrg hnd k

/-- Witness for C3 at a concrete input: the override replaces a list
wholesale and merges a nested mapping recursively. -/
theorem dict_merge_per_key_witness :
    ((([("l", Yaml.seq [Yaml.s "b"]), ("m", Yaml.map [("y", Yaml.n 2)])] :
        List (String × Yaml)).map Prod.fst).Nodup) ∧
      getK (dictMerge [("l", Yaml.seq [Yaml.s "a"]), ("m", Yaml.map [("x", Yaml.n 1)])]
          [("l", Yaml.seq [Yaml.s "b"]), ("m", Yaml.map [("y", Yaml.n 2)])]) "l" =
        some (Yaml.seq [Yaml.s "b"]) ∧
      getK (dictMerge [("l", Yaml.seq [Yaml.s "a"]), ("m", Yaml.map [("x", Yaml.n 1)])]
          [("l", Yaml.seq [Yaml.s "b"]), ("m", Yaml.map [("y", Yaml.n 2)])]) "m" =
        some (Yaml.map [("x", Yaml.n 1), ("y", Yaml.n 2)]) := by
  refine ⟨by decide, ?_, ?_⟩
  · have h := dict_merge_per_key
      [("l", Yaml.seq [Yaml.s "a"]), ("m", Yaml.map [("x", Yaml.n 1)])]
      [("l", Yaml.seq [Yaml.s "b"]), ("m", Yaml.map [("y", Yaml.n 2)])] (by decide) "l"
    rw [h]
    simp [getK, mergeValueSpec]
  · have h := dict_merge_per_key
      [("l", Yaml.seq [Yaml.s "a"]), ("m", Yaml.map [("x", Yaml.n 1)])]
      [("l", Yaml.seq [Yaml.s "b"]), ("m", Yaml.map [("y", Yaml.n 2)])] (by decide) "m"
    rw [h]
    simp [getK, mergeValueSpec, dictMerge, setK]

/-- Keys the override does not mention read the same before and after a
merge. -/
theorem dictMerge_getK_not_mem (d rest : List (String × Yaml)) (k : String)
    (hnd : (rest.map Prod.fst).Nodup) (hnm : k ∉ rest.map Prod.fst) :
    getK (dictMerge d rest) k = getK d k := by
  have h := dictMerge_getK d rest hnd k
  rw [getK_eq_none_of_not_mem rest k hnm] at h
  exact h

/-- Merging a mapping whose every entry already holds in the base leaves
the base unchanged. -/
theorem dictMerge_absorb : ∀ (n : Nat) (mrg dct : List (String × Yaml)),
    sizeOf mrg ≤ n → entriesWf mrg = true →
    (∀ kv ∈ mrg, getK dct kv.1 = some kv.2) → dictMerge dct mrg = dct := by
  intro n
  induction n with
  | zero =>
    intro mrg dct hs hwf hget
    cases mrg with
    | nil => simp [dictMerge]
    | cons kv rest =>
      simp only [List.cons.sizeOf_spec] at hs
      omega
  | succ m ih =>
    intro mrg dct hs hwf hget
    cases mrg with
    | nil => simp [dictMerge]
    | cons kv rest =>
      obtain ⟨k, v⟩ := kv
      simp only [entriesWf, Bool.and_eq_true] at hwf
      obtain ⟨hvwf, hrwf⟩ := hwf
      have hhead : getK dct k = some v := hget (k, v) (List.mem_cons_self _ _)
      have hrest : ∀ kv ∈ rest, getK dct kv.1 = some kv.2 :=
        fun kv hm => hget kv (List.mem_cons_of_mem _ hm)
      have hsr : sizeOf rest ≤ m := by
        simp only [List.cons.sizeOf_spec] at hs
        omega
      cases v with
      | map w =>
        have hsw : sizeOf w ≤ m := by
          simp only [List.cons.sizeOf_spec, Prod.mk.sizeOf_spec,
            Yaml.map.sizeOf_spec] at hs
          omega
        simp only [valWf, Bool.and_eq_true] at hvwf
        have hwnd : (w.map Prod.fst).Nodup := of_decide_eq_true hvwf.1
        have hww : dictMerge w w = w :=
          ih w w hsw hvwf.2
            (fun kv hm => getK_of_mem_nodup w kv.1 kv.2 hm hwnd)
        have hstep : dictMerge dct ((k, Yaml.map w) :: rest)
            = dictMerge (setK dct k (Yaml.map (dictMerge w w))) rest := by
          simp [dictMerge, hhead]
        rw [hstep, hww, setK_of_getK_eq dct k (Yaml.map w) hhead]
        exact ih rest dct hsr hrwf hrest
      | null =>
        have hstep : dictMerge dct ((k, Yaml.null) :: rest)
            = dictMerge (setK dct k Yaml.null) rest := by simp [dictMerge]
        rw [hstep, setK_of_getK_eq dct k _ hhead]
        exact ih rest dct hsr hrwf hrest
      | b x =>
        have hstep : dictMerge dct ((k, Yaml.b x) :: rest)
            = dictMerge (setK dct k (Yaml.b x)) rest := by simp [dictMerge]
        rw [hstep, setK_of_getK_eq dct k _ hhead]
        exact ih rest dct hsr hrwf hrest
      | n x =>
        have hstep : dictMerge dct ((k, Yaml.n x) :: rest)
            = dictMerge (setK dct k (Yaml.n x)) rest := by simp [dictMerge]
        rw [hstep, setK_of_getK_eq dct k _ hhead]
        exact ih rest dct hsr hrwf hrest
      | s x =>
        have hstep : dictMerge dct ((k, Yaml.s x) :: rest)
            = dictMerge (setK dct k (Yaml.s x)) rest := by simp [dictMerge]
        rw [hstep, setK_of_getK_eq dct k _ hhead]
        exact ih rest dct hsr hrwf hrest
      | seq l =>
        have hstep : dictMerge dct ((k, Yaml.seq l) :: rest)
            = dictMerge (setK dct k (Yaml.seq l)) rest := by simp [dictMerge]
        rw [hstep, setK_of_getK_eq dct k _ hhead]
        exact ih rest dct hsr hrwf hrest

/-- Merging a well-formed mapping into itself changes nothing. -/
theorem dictMerge_self (vm : List (String × Yaml))
    (h : valWf (Yaml.map vm) = true) : dictMerge vm vm = vm := by
  simp only [valWf, Bool.and_eq_true] at h
  exact dictMerge_absorb (sizeOf vm) vm vm (Nat.le_refl _) h.2
    (fun kv hm => getK_of_mem_nodup vm kv.1 kv.2 hm (of_decide_eq_true h.1))

/-- Idempotence of the deep merge, by strong induction on the size of the
override. -/
theorem dictMerge_idem_aux : ∀ (n : Nat) (mrg dct : List (String × Yaml)),
    sizeOf mrg ≤ n → valWf (Yaml.map mrg) = true →
    dictMerge (dictMerge dct mrg) mrg = dictMerge dct mrg := by
  intro n
  induction n with
  | zero =>
    intro mrg dct hs hwf
    cases mrg with
    | nil => simp [dictMerge]
    | cons kv rest =>
      simp only [List.cons.sizeOf_spec] at hs
      omega
  | succ m ih =>
    intro mrg dct hs hwf
    cases mrg with
    | nil => simp [dictMerge]
    | cons kv rest =>
      obtain ⟨k, v⟩ := kv
      simp only [valWf, entriesWf, List.map_cons, Bool.and_eq_true] at hwf
      obtain ⟨hndall, hv, hr⟩ := hwf
      have hnd2 := of_decide_eq_true hndall
      have hknm : k ∉ rest.map Prod.fst := (List.nodup_cons.mp hnd2).1
      have hndr : (rest.map Prod.fst).Nodup := (List.nodup_cons.mp hnd2).2
      have hszr : sizeOf rest ≤ m := by
        simp only [List.cons.sizeOf_spec] at hs
        omega
      have hwfr : valWf (Yaml.map rest) = true := by
        simp only [valWf, Bool.and_eq_true]
        exact ⟨decide_eq_true hndr, hr⟩
      cases v with
      | map vm =>
        have hszvm : sizeOf vm ≤ m := by
          simp only [List.cons.sizeOf_spec, Prod.mk.sizeOf_spec,
            Yaml.map.sizeOf_spec] at hs
          omega
        have hwfvm : valWf (Yaml.map vm) = true := hv
        cases hdm : getK dct k with
        | some y =>
          cases y with
          | map dm =>
            have hstep1 : dictMerge dct ((k, Yaml.map vm) :: rest)
                = dictMerge (setK dct k (Yaml.map (dictMerge dm vm))) rest := by
              simp [dictMerge, hdm]
            have hMk : getK (dictMerge (setK dct k (Yaml.map (dictMerge dm vm))) rest) k
                = some (Yaml.map (dictMerge dm vm)) := by
              rw [dictMerge_getK_not_mem _ rest k hndr hknm, getK_setK_self]
            have hstep2 :
                dictMerge (dictMerge (setK dct k (Yaml.map (dictMerge dm vm))) rest)
                    ((k, Yaml.map vm) :: rest)
                = dictMerge (setK (dictMerge (setK dct k (Yaml.map (dictMerge dm vm))) rest)
                    k (Yaml.map (dictMerge (dictMerge dm vm) vm))) rest := by
              simp [dictMerge, hMk]
            rw [hstep1, hstep2, ih vm dm hszvm hwfvm, setK_of_getK_eq _ k _ hMk]
            exact ih rest _ hszr hwfr
          | null =>
            have hstep1 : dictMerge dct ((k, Yaml.map vm) :: rest)
                = dictMerge (setK dct k (Yaml.map vm)) rest := by
              simp [dictMerge, hdm]
            have hMk : getK (dictMerge (setK dct k (Yaml.map vm)) rest) k
                = some (Yaml.map vm) := by
              rw [dictMerge_getK_not_mem _ rest k hndr hknm, getK_setK_self]
            have hstep2 :
                dictMerge (dictMerge (setK dct k (Yaml.map vm)) rest)
                    ((k, Yaml.map vm) :: rest)
                = dictMerge (setK (dictMerge (setK dct k (Yaml.map vm)) rest)
                    k (Yaml.map (dictMerge vm vm))) rest := by
              simp [dictMerge, hMk]
            rw [hstep1, hstep2, dictMerge_self vm hwfvm, setK_of_getK_eq _ k _ hMk]
            exact ih rest _ hszr hwfr
          | b x =>
            have hstep1 : dictMerge dct ((k, Yaml.map vm) :: rest)
                = dictMerge (setK dct k (Yaml.map vm)) rest := by
              simp [dictMerge, hdm]
            have hMk : getK (dictMerge (setK dct k (Yaml.map vm)) rest) k
                = some (Yaml.map vm) := by
              rw [dictMerge_getK_not_mem _ rest k hndr hknm, getK_setK_self]
            have hstep2 :
                dictMerge (dictMerge (setK dct k (Yaml.map vm)) rest)
                    ((k, Yaml.map vm) :: rest)
                = dictMerge (setK (dictMerge (setK dct k (Yaml.map vm)) rest)
                    k (Yaml.map (dictMerge vm vm))) rest := by
              simp [dictMerge, hMk]
            rw [hstep1, hstep2, dictMerge_self vm hwfvm, setK_of_getK_eq _ k _ hMk]
            exact ih rest _ hszr hwfr
          | n x =>
            have hstep1 : dictMerge dct ((k, Yaml.map vm) :: rest)
                = dictMerge (setK dct k (Yaml.map vm)) rest := by
              simp [dictMerge, hdm]
            have hMk : getK (dictMerge (setK dct k (Yaml.map vm)) rest) k
                = some (Yaml.map vm) := by
              rw [dictMerge_getK_not_mem _ rest k hndr hknm, getK_setK_self]
            have hstep2 :
                dictMerge (dictMerge (setK dct k (Yaml.map vm)) rest)
                    ((k, Yaml.map vm) :: rest)
                = dictMerge (setK (dictMerge (setK dct k (Yaml.map vm)) rest)
                    k (Yaml.map (dictMerge vm vm))) rest := by
              simp [dictMerge, hMk]
            rw [hstep1, hstep2, dictMerge_self vm hwfvm, setK_of_getK_eq _ k _ hMk]
            exact ih rest _ hszr hwfr
          | s x =>
            have hstep1 : dictMerge dct ((k, Yaml.map vm) :: rest)
                = dictMerge (setK dct k (Yaml.map vm)) rest := by
              simp [dictMerge, hdm]
            have hMk : getK (dictMerge (setK dct k (Yaml.map vm)) rest) k
                = some (Yaml.map vm) := by
              rw [dictMerge_getK_not_mem _ rest k hndr hknm, getK_setK_self]
            have hstep2 :
                dictMerge (dictMerge (setK dct k (Yaml.map vm)) rest)
                    ((k, Yaml.map vm) :: rest)
                = dictMerge (setK (dictMerge (setK dct k (Yaml.map vm)) rest)
                    k (Yaml.map (dictMerge vm vm))) rest := by
              simp [dictMerge, hMk]
            rw [hstep1, hstep2, dictMerge_self vm hwfvm, setK_of_getK_eq _ k _ hMk]
            exact ih rest _ hszr hwfr
          | seq l =>
            have hstep1 : dictMerge dct ((k, Yaml.map vm) :: rest)
                = dictMerge (setK dct k (Yaml.map vm)) rest := by
              simp [dictMerge, hdm]
            have hMk : getK (dictMerge (setK dct k (Yaml.map vm)) rest) k
                = some (Yaml.map vm) := by
              rw [dictMerge_getK_not_mem _ rest k hndr hknm, getK_setK_self]
            have hstep2 :
                dictMerge (dictMerge (setK dct k (Yaml.map vm)) rest)
                    ((k, Yaml.map vm) :: rest)
                = dictMerge (setK (dictMerge (setK dct k (Yaml.map vm)) rest)
                    k (Yaml.map (dictMerge vm vm))) rest := by
              simp [dictMerge, hMk]
            rw [hstep1, hstep2, dictMerge_self vm hwfvm, setK_of_getK_eq _ k _ hMk]
            exact ih rest _ hszr hwfr
        | none =>
          have hstep1 : dictMerge dct ((k, Yaml.map vm) :: rest)
              = dictMerge (setK dct k (Yaml.map vm)) rest := by
            simp [dictMerge, hdm]
          have hMk : getK (dictMerge (setK dct k (Yaml.map vm)) rest) k
              = some (Yaml.map vm) := by
            rw [dictMerge_getK_not_mem _ rest k hndr hknm, getK_setK_self]
          have hstep2 :
              dictMerge (dictMerge (setK dct k (Yaml.map vm)) rest)
                  ((k, Yaml.map vm) :: rest)
              = dictMerge (setK (dictMerge (setK dct k (Yaml.map vm)) rest)
                  k (Yaml.map (dictMerge vm vm))) rest := by
            simp [dictMerge, hMk]
          rw [hstep1, hstep2, dictMerge_self vm hwfvm, setK_of_getK_eq _ k _ hMk]
          exact ih rest _ hszr hwfr
      | null =>
        have hstep1 : dictMerge dct ((k, Yaml.null) :: rest)
            = dictMerge (setK dct k Yaml.null) rest := by simp [dictMerge]
        have hMk : getK (dictMerge (setK dct k Yaml.null) rest) k
            = some Yaml.null := by
          rw [dictMerge_getK_not_mem _ rest k hndr hknm, getK_setK_self]
        have hstep2 :
            dictMerge (dictMerge (setK dct k Yaml.null) rest) ((k, Yaml.null) :: rest)
            = dictMerge (setK (dictMerge (setK dct k Yaml.null) rest) k Yaml.null)
                rest := by
          simp [dictMerge, hMk]
        rw [hstep1, hstep2, setK_of_getK_eq _ k _ hMk]
        exact ih rest _ hszr hwfr
      | b x =>
        have hstep1 : dictMerge dct ((k, Yaml.b x) :: rest)
            = dictMerge (setK dct k (Yaml.b x)) rest := by simp [dictMerge]
        have hMk : getK (dictMerge (setK dct k (Yaml.b x)) rest) k
            = some (Yaml.b x) := by
          rw [dictMerge_getK_not_mem _ rest k hndr hknm, getK_setK_self]
        have hstep2 :
            dictMerge (dictMerge (setK dct k (Yaml.b x)) rest) ((k, Yaml.b x) :: rest)
            = dictMerge (setK (dictMerge (setK dct k (Yaml.b x)) rest) k (Yaml.b x))
                rest := by
          simp [dictMerge, hMk]
        rw [hstep1, hstep2, setK_of_getK_eq _ k _ hMk]
        exact ih rest _ hszr hwfr
      | n x =>
        have hstep1 : dictMerge dct ((k, Yaml.n x) :: rest)
            = dictMerge (setK dct k (Yaml.n x)) rest := by simp [dictMerge]
        have hMk : getK (dictMerge (setK dct k (Yaml.n x)) rest) k
            = some (Yaml.n x) := by
          rw [dictMerge_getK_not_mem _ rest k hndr hknm, getK_setK_self]
        have hstep2 :
            dictMerge (dictMerge (setK dct k (Yaml.n x)) rest) ((k, Yaml.n x) :: rest)
            = dictMerge (setK (dictMerge (setK dct k (Yaml.n x)) rest) k (Yaml.n x))
                rest := by
          simp [dictMerge, hMk]
        rw [hstep1, hstep2, setK_of_getK_eq _ k _ hMk]
        exact ih rest _ hszr hwfr
      | s x =>
        have hstep1 : dictMerge dct ((k, Yaml.s x) :: rest)
            = dictMerge (setK dct k (Yaml.s x)) rest := by simp [dictMerge]
        have hMk : getK (dictMerge (setK dct k (Yaml.s x)) rest) k
            = some (Yaml.s x) := by
          rw [dictMerge_getK_not_mem _ rest k hndr hknm, getK_setK_self]
        have hstep2 :
            dictMerge (dictMerge (setK dct k (Yaml.s x)) rest) ((k, Yaml.s x) :: rest)
            = dictMerge (setK (dictMerge (setK dct k (Yaml.s x)) rest) k (Yaml.s x))
                rest := by
          simp [dictMerge, hMk]
        rw [hstep1, hstep2, setK_of_getK_eq _ k _ hMk]
        exact ih rest _ hszr hwfr
      | seq l =>
        have hstep1 : dictMerge dct ((k, Yaml.seq l) :: rest)
            = dictMerge (setK dct k (Yaml.seq l)) rest := by simp [dictMerge]
        have hMk : getK (dictMerge (setK dct k (Yaml.seq l)) rest) k
            = some (Yaml.seq l) := by
          rw [dictMerge_getK_not_mem _ rest k hndr hknm, getK_setK_self]
        have hstep2 :
            dictMerge (dictMerge (setK dct k (Yaml.seq l)) rest) ((k, Yaml.seq l) :: rest)
            = dictMerge (setK (dictMerge (setK dct k (Yaml.seq l)) rest) k (Yaml.seq l))
                rest := by
          simp [dictMerge, hMk]
        rw [hstep1, hstep2, setK_of_getK_eq _ k _ hMk]
        exact ih rest _ hszr hwfr

/-- C7: the deep merge is idempotent — merging the override onto an
already merged result changes nothing. -/
theorem dict_merge_idempotent (D O : List (String × Yaml))
    (h : valWf (Yaml.map O) = true) :
    dictMerge (dictMerge D O) O = dictMerge D O :=
  dictMerge_idem_aux (sizeOf O) O D (Nat.le_refl _) h

/-- Witness for C7 at a concrete input. -/
theorem dict_merge_idempotent_witness :
    valWf (Yaml.map [("a", Yaml.map [("x", Yaml.n 1)]), ("b", Yaml.s "v")]) = true ∧
      dictMerge
          (dictMerge [("a", Yaml.map [("y", Yaml.n 0)])]
            [("a", Yaml.map [("x", Yaml.n 1)]), ("b", Yaml.s "v")])
          [("a", Yaml.map [("x", Yaml.n 1)]), ("b", Yaml.s "v")]
        = dictMerge [("a", Yaml.map [("y", Yaml.n 0)])]
            [("a", Yaml.map [("x", Yaml.n 1)]), ("b", Yaml.s "v")] :=
  ⟨by decide, dict_merge_idempotent _ _ (by decide)⟩

/-!  Lemmas about branch selection. -/

theorem charListLe_nil_right (l : List Char) (h : charListLe l [] = true) :
    l = [] := by
  cases l with
  | nil => rfl
  | cons a as => simp [charListLe] at h

theorem charListLe_total : ∀ as bs : List Char,
    charListLe as bs = true ∨ charListLe bs as = true := by
  intro as
  induction as with
  | nil => intro bs; left; rfl
  | cons a as ih =>
    intro bs
    cases bs with
    | nil => right; rfl
    | cons b bs2 =>
      rcases Nat.lt_trichotomy a.toNat b.toNat with h | h | h
      · left
        simp [charListLe, h]
      · have h1 : ¬ a.toNat < b.toNat := by omega
        have h2 : ¬ b.toNat < a.toNat := by omega
        rcases ih bs2 with hh | hh
        · left
          simp [charListLe, h1, h2, hh]
        · right
          simp [charListLe, h1, h2, hh]
      · right
        simp [charListLe, h]

theorem charListLe_trans : ∀ as bs cs : List Char, charListLe as bs = true →
    charListLe bs cs = true → charListLe as cs = true := by
  intro as
  induction as with
  | nil => intro bs cs _ _; rfl
  | cons a as ih =>
    intro bs cs h1 h2
    cases bs with
    | nil => simp [charListLe] at h1
    | cons b bs2 =>
      cases cs with
      | nil => simp [charListLe] at h2
      | cons c cs2 =>
        by_cases hab : a.toNat < b.toNat
        · by_cases hbc : b.toNat < c.toNat
          · have hac : a.toNat < c.toNat := by omega
            simp [charListLe, hac]
          · by_cases hcb : c.toNat < b.toNat
            · simp [charListLe, hbc, hcb] at h2
            · have hac : a.toNat < c.toNat := by omega
              simp [charListLe, hac]
        · by_cases hba : b.toNat < a.toNat
          · simp [charListLe, hab, hba] at h1
          · simp only [charListLe, if_neg hab, if_neg hba] at h1
            by_cases hbc : b.toNat < c.toNat
            · have hac : a.toNat < c.toNat := by omega
              simp [charListLe, hac]
            · by_cases hcb : c.toNat < b.toNat
              · simp [charListLe, hbc, hcb] at h2
              · simp only [charListLe, if_neg hbc, if_neg hcb] at h2
                have hac1 : ¬ a.toNat < c.toNat := by omega
                have hca : ¬ c.toNat < a.toNat := by omega
                simp [charListLe, hac1, hca, ih bs2 cs2 h1 h2]

/-- The loop of `build_branch_rule` over a pattern list without empty
patterns behaves as: find the first pattern that matches (as a regular
expression when it starts with a caret, by string equality otherwise) and
resolve it; fall through to the default path when none matches. -/
theorem buildBranchRuleGo_eq_find (rematch : String → String → Bool)
    (doc : RulesDoc) (branch : String) :
    ∀ l : List String, (∀ p ∈ l, p ≠ "") →
    buildBranchRuleGo rematch doc branch l =
      match l.find? (fun p => if caretPattern p then rematch p branch
                              else p == branch) with
      | some p =>
        (match getK doc.branches p with
         | none => none
         | some Yaml.null => some none
         | some _ => getMergedBranchRule doc (some p))
      | none => getMergedBranchRule doc none := by
  intro l
  induction l with
  | nil => intro _; rfl
  | cons p rest ih =>
    intro hne
    have hp : p ≠ "" := hne p (List.mem_cons_self _ _)
    obtain ⟨c, cs, hdata⟩ : ∃ c cs, p.data = c :: cs := by
      cases hd : p.data with
      | nil =>
        exfalso
        apply hp
        cases p with
        | mk d => simp at hd; rw [hd]
      | cons c cs => exact ⟨c, cs, rfl⟩
    have hcar : caretPattern p = (c == '^') := by
      simp [caretPattern, hdata]
    have hrest : ∀ q ∈ rest, q ≠ "" :=
      fun q hq => hne q (List.mem_cons_of_mem _ hq)
    cases hc : (c == '^') with
    | true =>
      cases hrm : rematch p branch with
      | true =>
        simp [buildBranchRuleGo, hdata, hc, hrm, List.find?, hcar]
      | false =>
        simp [buildBranchRuleGo, hdata, hc, hrm, List.find?, hcar, ih hrest]
    | false =>
      cases heq : (p == branch) with
      | true =>
        simp [buildBranchRuleGo, hdata, hc, heq, List.find?, hcar]
      | false =>
        simp [buildBranchRuleGo, hdata, hc, heq, List.find?, hcar, ih hrest]

/-- C2: branch selection iterates the pattern keys in lexicographically
sorted order, treats a pattern as a regular expression exactly when its
first character is a caret and as an exact string match otherwise, and the
first pattern that matches in that order determines the result, later
patterns never being considered. -/
theorem branch_selection_sorted_first_match (rematch : String → String → Bool)
    (doc : RulesDoc) (branch : String)
    (hne : ∀ p ∈ doc.branches.map Prod.fst, p ≠ "") :
    buildBranchRule rematch doc branch =
      match selectBranchSpec rematch (doc.branches.map Prod.fst) branch with
      | some p =>
        (if getK doc.branches p = some Yaml.null then some none
         else getMergedBranchRule doc (some p))
      | none => getMergedBranchRule doc none := by
  have hne2 : ∀ p ∈ sortStrings (doc.branches.map Prod.fst), p ≠ "" := by
    intro p hp
    exact hne p (((List.perm_insertionSort strLe _).mem_iff).mp hp)
  rw [buildBranchRule, buildBranchRuleGo_eq_find rematch doc branch _ hne2]
  simp only [selectBranchSpec, sortStrings]
  cases hf : (List.insertionSort strLe (doc.branches.map Prod.fst)).find?
      (fun p => if caretPattern p then rematch p branch else p == branch) with
  | none => rfl
  | some p =>
    have hpmem : p ∈ doc.branches.map Prod.fst :=
      ((List.perm_insertionSort strLe _).mem_iff).mp (List.mem_of_find?_eq_some hf)
    obtain ⟨v, hv⟩ := getK_isSome_of_mem_keys doc.branches p hpmem
    cases v with
    | null => simp [hv]
    | b x => simp [hv]
    | n x => simp [hv]
    | s x => simp [hv]
    | seq x => simp [hv]
    | map x => simp [hv]

/-- Witness for C2 on the example of the specification: among the patterns
feature/*, ^feature/.*, main (in that insertion order) the branch main
selects the literal main entry. -/
theorem branch_selection_sorted_first_match_witness :
    (∀ p ∈ exDocC2.branches.map Prod.fst, p ≠ "") ∧
      selectBranchSpec exRe (exDocC2.branches.map Prod.fst) "main" = some "main" ∧
      buildBranchRule exRe exDocC2 "main" = getMergedBranchRule exDocC2 (some "main") := by
  refine ⟨by decide, by decide, ?_⟩
  have h := branch_selection_sorted_first_match exRe exDocC2 "main" (by decide)
  rw [h]
  rfl

/-- C5: null is distinguished from absence — a first matching pattern with
a null value resolves to no policy; no match with a present null `default`
also resolves to no policy; and no match with an absent (or mapping
valued) `default` resolves to the default-merge result, which is a policy
and not `None`. -/
theorem null_vs_absent_branch_resolution (rematch : String → String → Bool)
    (doc : RulesDoc) (branch : String)
    (hne : ∀ p ∈ doc.branches.map Prod.fst, p ≠ "") :
    (∀ p, selectBranchSpec rematch (doc.branches.map Prod.fst) branch = some p →
        getK doc.branches p = some Yaml.null →
        buildBranchRule rematch doc branch = some none) ∧
      (selectBranchSpec rematch (doc.branches.map Prod.fst) branch = none →
        doc.dflt = some Yaml.null →
        buildBranchRule rematch doc branch = some none) ∧
      (selectBranchSpec rematch (doc.branches.map Prod.fst) branch = none →
        (doc.dflt = none ∨ ∃ m, doc.dflt = some (Yaml.map m)) →
        buildBranchRule rematch doc branch = getMergedBranchRule doc none ∧
          ∃ m2, getMergedBranchRule doc none = some (some (Yaml.map m2))) := by
  have hne2 : ∀ p ∈ sortStrings (doc.branches.map Prod.fst), p ≠ "" := by
    intro p hp
    exact hne p (((List.perm_insertionSort strLe _).mem_iff).mp hp)
  have hgo := buildBranchRuleGo_eq_find rematch doc branch _ hne2
  refine ⟨?_, ?_, ?_⟩
  · intro p hsel hnull
    simp only [selectBranchSpec] at hsel
    rw [buildBranchRule, hgo, hsel]
    simp [hnull]
  · intro hsel hnull
    simp only [selectBranchSpec] at hsel
    rw [buildBranchRule, hgo, hsel]
    simp [getMergedBranchRule, hnull, defaultBranchPath]
  · intro hsel hdflt
    constructor
    · simp only [selectBranchSpec] at hsel
      rw [buildBranchRule, hgo, hsel]
    · rcases hdflt with h0 | ⟨m2, h0⟩
      · exact ⟨DEFAULT_RULE, by simp [getMergedBranchRule, h0, defaultBranchPath]⟩
      · exact ⟨dictMerge DEFAULT_RULE m2,
          by simp [getMergedBranchRule, h0, defaultBranchPath]⟩

/-- Witness for C5 at a concrete input: a branch pattern mapped to null
resolves to no policy. -/
theorem null_vs_absent_branch_resolution_witness :
    (∀ p ∈ ({ dflt := some Yaml.null, branches := [("dead", Yaml.null)] } :
        RulesDoc).branches.map Prod.fst, p ≠ "") ∧
      buildBranchRule (fun _ _ => false)
        { dflt := some Yaml.null, branches := [("dead", Yaml.null)] } "dead" =
        some none := by
  refine ⟨by decide, ?_⟩
  exact (null_vs_absent_branch_resolution (fun _ _ => false) _ "dead"
    (by decide)).1 "dead" (by decide) (by decide)

theorem sortStrings_empty_first (l : List String) (h : "" ∈ l) :
    ∃ rest, sortStrings l = "" :: rest := by
  have hmem : "" ∈ sortStrings l :=
    ((List.perm_insertionSort strLe l).mem_iff).mpr h
  have hsorted : List.Sorted strLe (sortStrings l) :=
    @List.sorted_insertionSort String strLe _
      ⟨fun a b => charListLe_total a.data b.data⟩
      ⟨fun a b c => charListLe_trans a.data b.data c.data⟩ l
  cases hs : sortStrings l with
  | nil =>
    rw [hs] at hmem
    cases hmem
  | cons p rest =>
    rw [hs] at hmem hsorted
    rcases List.mem_cons.mp hmem with he | he
    · exact ⟨rest, by rw [← he]⟩
    · have hple : strLe p "" := (List.pairwise_cons.mp hsorted).1 "" he
      have hdata : p.data = [] := charListLe_nil_right p.data hple
      have hpe : p = "" := by
        cases p with
        | mk d =>
          simp only at hdata
          rw [hdata]
      exact ⟨rest, by rw [hpe]⟩

/-- C10: branch selection reads the first character of every pattern key,
so a rules mapping whose branches contain the empty-string pattern makes
`build_branch_rule` fail with an uncaught IndexError for every branch
name, instead of treating the empty pattern as a literal that matches
nothing. -/
theorem empty_pattern_crashes (rematch : String → String → Bool)
    (doc : RulesDoc) (branch : String)
    (h : "" ∈ doc.branches.map Prod.fst) :
    buildBranchRule rematch doc branch = none := by
  obtain ⟨rest, hs⟩ := sortStrings_empty_first _ h
  rw [buildBranchRule, hs]
  rfl

/-- Witness for C10 at a concrete input. -/
theorem empty_pattern_crashes_witness :
    ("" ∈ ({ dflt := none, branches := [("", Yaml.null), ("main", Yaml.null)] } :
        RulesDoc).branches.map Prod.fst) ∧
      buildBranchRule (fun _ _ => false)
        { dflt := none, branches := [("", Yaml.null), ("main", Yaml.null)] }
        "main" = none :=
  ⟨by decide, empty_pattern_crashes (fun _ _ => false) _ "main" (by decide)⟩

/-!  Lemmas about the rule matcher. -/

theorem ruleMatchConditions_none_iff (d : β) (conds : List (Condition β)) :
    ruleMatchConditions d conds = none ↔ ruleDisqualifiedSpec d conds = true := by
  induction conds with
  | nil => simp [ruleMatchConditions, ruleDisqualifiedSpec]
  | cons c rest ih =>
    by_cases he : c.eval d
    · simpa [ruleMatchConditions, ruleDisqualifiedSpec, he] using ih
    · by_cases hb : c.attribute_name ∈ BASE_ATTRIBUTES
      · simp [ruleMatchConditions, ruleDisqualifiedSpec, he, hb]
      · simpa [ruleMatchConditions, ruleDisqualifiedSpec, he, hb,
          Option.map_eq_none'] using ih

theorem ruleMatchConditions_some (d : β) (conds : List (Condition β))
    (h : ruleDisqualifiedSpec d conds = false) :
    ruleMatchConditions d conds = some (pendingSpec d conds) := by
  induction conds with
  | nil => simp [ruleMatchConditions, pendingSpec]
  | cons c rest ih =>
    have hsplit := h
    simp only [ruleDisqualifiedSpec, List.any_cons, Bool.or_eq_false_iff] at hsplit
    obtain ⟨h1, h2⟩ := hsplit
    have h2r : ruleDisqualifiedSpec d rest = false := h2
    by_cases he : c.eval d
    · simp [ruleMatchConditions, pendingSpec, he, ih h2r, pendingSpec]
    · have hb : c.attribute_name ∉ BASE_ATTRIBUTES := by
        intro hmem
        simp [he, hmem] at h1
      simp [ruleMatchConditions, pendingSpec, he, hb, ih h2r]

/-- C1: for every rule list and attribute bag, a rule is excluded entirely
from the matcher output exactly when at least one of its conditions whose
attribute name is in BASE_ATTRIBUTES evaluates false on the bag: the rules
appearing in the output are precisely the non-disqualified ones, so a
disqualified rule never appears, not even with the failed condition listed
as pending. -/
theorem base_attribute_failure_excludes_rule (β : Type) (d : β)
    (rules : List (PRRule β)) :
    (matchingRules rules d).map Prod.fst =
      rules.filter (fun r => !(ruleDisqualifiedSpec d r.conditions)) := by
  induction rules with
  | nil => rfl
  | cons r rest ih =>
    simp only [matchingRules, List.filterMap_cons, List.filter_cons] at ih ⊢
    cases hm : ruleMatchConditions d r.conditions with
    | none =>
      have hd := (ruleMatchConditions_none_iff d r.conditions).mp hm
      simp [hd, ih]
    | some p =>
      have hd : ruleDisqualifiedSpec d r.conditions = false := by
        cases hdq : ruleDisqualifiedSpec d r.conditions
        · rfl
        · exact absurd hm (by simp [(ruleMatchConditions_none_iff d r.conditions).mpr hdq])
      simp [hd, ih]

/-- C4: for every rule not disqualified by a base-attribute failure the
matcher outputs the pair of the rule and exactly its conditions that
evaluated false and are not base attributes, in declared order, and the
output preserves the relative order of the input rules. -/
theorem matcher_output_pairs (β : Type) (d : β) (rules : List (PRRule β)) :
    matchingRules rules d =
      (rules.filter (fun r => !(ruleDisqualifiedSpec d r.conditions))).map
        (fun r => (r, pendingSpec d r.conditions)) := by
  induction rules with
  | nil => rfl
  | cons r rest ih =>
    simp only [matchingRules, List.filterMap_cons, List.filter_cons] at ih ⊢
    cases hdq : ruleDisqualifiedSpec d r.conditions
    · simp [ruleMatchConditions_some d r.conditions hdq, hdq, ih]
    · simp [(ruleMatchConditions_none_iff d r.conditions).mpr hdq, hdq, ih]

/-- C9: a rule whose condition list is empty is included in the matcher
output for every attribute bag, paired with an empty pending list. -/
theorem empty_conditions_rule_matches (β : Type) (d : β)
    (rules : List (PRRule β)) (r : PRRule β) (hr : r ∈ rules)
    (hc : r.conditions = []) :
    (r, ([] : List (Condition β))) ∈ matchingRules rules d := by
  apply List.mem_filterMap.mpr
  exact ⟨r, hr, by simp [hc, ruleMatchConditions]⟩

/-!  Heap lemmas for the mutation claim about the deep merge. -/

theorem heapCell_heapWrite_ne (h : Heap) (i j : Nat)
    (d : List (String × HVal)) (hij : i ≠ j) :
    heapCell (heapWrite h i d) j = heapCell h j := by
  simp only [heapCell, heapWrite]
  rw [List.getD_eq_getElem?_getD, List.getD_eq_getElem?_getD,
    List.getElem?_set_ne hij]

theorem dictMergeGo_frame : ∀ (items : List (String × HVal)) (fuel : Nat)
    (h : Heap) (dct : Nat) (h2 : Heap) (j : Nat), entriesNoRef items = true →
    dictMergeGo fuel h dct items = some h2 → j ≠ dct →
    heapCell h2 j = heapCell h j := by
  intro items
  induction items with
  | nil =>
    intro fuel h dct h2 j _ hrun _
    simp only [dictMergeGo] at hrun
    rw [← Option.some.inj hrun]
  | cons kv rest ih =>
    intro fuel h dct h2 j hnr hrun hj
    obtain ⟨k, v⟩ := kv
    simp only [entriesNoRef, List.all_cons, Bool.and_eq_true] at hnr
    obtain ⟨hv, hrest⟩ := hnr
    cases fuel with
    | zero => simp [dictMergeGo] at hrun
    | succ f =>
      have hstep : dictMergeGo (Nat.succ f) h dct ((k, v) :: rest)
          = dictMergeGo f (heapWrite h dct (setK (heapCell h dct) k v)) dct rest := by
        cases v with
        | href i => exact absurd hv (by simp)
        | hnull =>
          cases hg : getK (heapCell h dct) k with
          | none => simp [dictMergeGo, hg]
          | some w => cases w <;> simp [dictMergeGo, hg]
        | hb x =>
          cases hg : getK (heapCell h dct) k with
          | none => simp [dictMergeGo, hg]
          | some w => cases w <;> simp [dictMergeGo, hg]
        | hn x =>
          cases hg : getK (heapCell h dct) k with
          | none => simp [dictMergeGo, hg]
          | some w => cases w <;> simp [dictMergeGo, hg]
        | hstr x =>
          cases hg : getK (heapCell h dct) k with
          | none => simp [dictMergeGo, hg]
          | some w => cases w <;> simp [dictMergeGo, hg]
        | hlist l2 =>
          cases hg : getK (heapCell h dct) k with
          | none => simp [dictMergeGo, hg]
          | some w => cases w <;> simp [dictMergeGo, hg]
      rw [hstep] at hrun
      rw [ih f _ dct h2 j hrest hrun hj]
      exact heapCell_heapWrite_ne h dct j _ (fun hh => hj hh.symm)

/-- Amended C6: a single `_dict_merge` call whose override contains no
nested mapping reference never changes any heap cell other than the base
mapping; the full claim fails because the branch-resolution sequence
aliases the document default into the working base and the later merge
then writes through that alias (see the counterexample). -/
theorem dict_merge_no_ref_override_frame (fuel : Nat) (h : Heap)
    (dct mrg : Nat) (h2 : Heap) (j : Nat)
    (hnr : entriesNoRef (heapCell h mrg) = true)
    (hrun : dictMergeH fuel h dct mrg = some h2) (hj : j ≠ dct) :
    heapCell h2 j = heapCell h j :=
  dictMergeGo_frame (heapCell h mrg) fuel h dct h2 j hnr hrun hj

/-- Witness for the amended C6 at a concrete input. -/
theorem dict_merge_no_ref_override_frame_witness :
    entriesNoRef (heapCell [[("a", HVal.hn 1)], [("b", HVal.hn 2)]] 1) = true ∧
      dictMergeH 5 [[("a", HVal.hn 1)], [("b", HVal.hn 2)]] 0 1
        = some [[("a", HVal.hn 1), ("b", HVal.hn 2)], [("b", HVal.hn 2)]] ∧
      heapCell [[("a", HVal.hn 1), ("b", HVal.hn 2)], [("b", HVal.hn 2)]] 1
        = heapCell [[("a", HVal.hn 1)], [("b", HVal.hn 2)]] 1 :=
  ⟨by decide, by decide,
   dict_merge_no_ref_override_frame 5 [[("a", HVal.hn 1)], [("b", HVal.hn 2)]]
     0 1 [[("a", HVal.hn 1), ("b", HVal.hn 2)], [("b", HVal.hn 2)]] 1
     (by decide) (by decide) (by decide)⟩

/-- Counterexample to C6 as stated: running the branch-resolution sequence
of `get_merged_branch_rule` (deep copy of the built-in default, merge of
the document default, merge of the branch override) on `exHeapC6` mutates
the document default policy, which is the override argument of the first
merge — re-reading it afterwards yields a different structure (the branch
override key stable/2.0 has been spliced into it). -/
theorem dict_merge_mutates_override_counterexample :
    (match getMergedBranchRuleH 32 exHeapC6 0 (some (some 5)) (some (some 7)) with
     | some (h2, _) => readbackH 32 h2 (HVal.href 5)
     | none => none) ≠ readbackH 32 exHeapC6 (HVal.href 5) := by
  decide

/-- C8: validation accepts a parsed policy document only when exactly one
of the two document shapes is present; a document with neither the legacy
rules shape nor the pull_request_rules shape, and a document with both,
fail validation and surface as the invalid-policy error. -/
theorem exactly_one_schema (doc : List (String × Yaml)) :
    ((checkV1 doc = false ∧ checkV2 doc = false) →
        isInvalidRules (getMergifyConfigParsed doc) = true) ∧
      ((checkV1 doc = true ∧ checkV2 doc = true) →
        isInvalidRules (getMergifyConfigParsed doc) = true) ∧
      (∀ d2, getMergifyConfigParsed doc = Except.ok d2 →
        checkV1 doc ≠ checkV2 doc) := by
  refine ⟨?_, ?_, ?_⟩
  · rintro ⟨h1, h2⟩
    simp [getMergifyConfigParsed, validateUserConfig, h1, h2, isInvalidRules]
  · rintro ⟨h1, h2⟩
    simp [getMergifyConfigParsed, validateUserConfig, h1, h2, isInvalidRules]
  · intro d2 hok heq
    cases hc1 : checkV1 doc <;> cases hc2 : checkV2 doc
    · simp [getMergifyConfigParsed, validateUserConfig, hc1, hc2] at hok
    · rw [hc1, hc2] at heq
      exact Bool.noConfusion heq
    · rw [hc1, hc2] at heq
      exact Bool.noConfusion heq
    · simp [getMergifyConfigParsed, validateUserConfig, hc1, hc2] at hok

/-- Witness for C8 at a concrete input: the empty document has neither
shape and is rejected as invalid. -/
theorem exactly_one_schema_witness :
    (checkV1 ([] : List (String × Yaml)) = false ∧
        checkV2 ([] : List (String × Yaml)) = false) ∧
      isInvalidRules (getMergifyConfigParsed ([] : List (String × Yaml))) = true :=
  ⟨⟨rfl, rfl⟩, (exactly_one_schema []).1 ⟨rfl, rfl⟩⟩

/-- Witness for C9 at a concrete input. -/
theorem empty_conditions_rule_matches_witness :
    (⟨"empty", []⟩ : PRRule Nat) ∈ [(⟨"empty", []⟩ : PRRule Nat)] ∧
      (⟨"empty", []⟩ : PRRule Nat).conditions = [] ∧
      ((⟨"empty", []⟩ : PRRule Nat), ([] : List (Condition Nat))) ∈
        matchingRules [(⟨"empty", []⟩ : PRRule Nat)] 0 :=
  ⟨List.mem_singleton.mpr rfl, rfl,
   empty_conditions_rule_matches Nat 0 _ _ (List.mem_singleton.mpr rfl) rfl⟩

end MergifyRules
